import Mathlib

/-!
Verification of the attention core of `qelos/transformer.py`: the
`MultiHeadAttention` module (content and relative-position scoring, causal
masking, the incremental-decode history with horizon bound and reset
semantics, the relative-position cache) and the `TS2S` seq2seq driver
(encoder-output caching during incremental decoding).

Modelling conventions:
* tensors are total functions `ℕ → ... → ℝ`; sizes are passed separately and
  the batch dimension is dropped where it plays no computational role
  (it only appears in reshapes in the source);
* dropout layers are identity (all claims assume dropout disabled, which is
  also inference-time behaviour);
* Python exceptions (`raise`, failing `assert`) become `Except.error`;
  methods that mutate the module return the mutated state next to the
  result, so state changes made before an exception are observable;
* `softmax(w + log mask)` for a 0/1 mask is embedded as the masked softmax
  `mask * exp w / ∑ mask * exp w`, which is the IEEE semantics of the source
  (`log 0 = -inf`, `exp (-inf) = 0`); Mathlib has `Real.log 0 = 0`, so a
  literal transcription would misrepresent the computation;
* embedding-table lookups are totalised over ℤ offsets (the source would
  raise an index error outside `[-maxlen, maxlen)`; no claim depends on
  that region).
-/

namespace Qelos

noncomputable section

open scoped BigOperators

/-- Rank-1 real tensor (a vector), indexed by ℕ. -/
abbrev T1 := ℕ → ℝ

/-- Rank-2 real tensor. -/
abbrev T2 := ℕ → ℕ → ℝ

/-- Rank-3 real tensor. -/
abbrev T3 := ℕ → ℕ → ℕ → ℝ

/-- Rank-4 real tensor. -/
abbrev T4 := ℕ → ℕ → ℕ → ℕ → ℝ

/-- Models `nn.Linear`: `y o = (W x) o + b o`, summing over `inDim` inputs. -/
def linear (W : T2) (b : T1) (inDim : ℕ) (x : T1) : T1 :=
  fun o => (∑ i ∈ Finset.range inDim, W o i * x i) + b o

/-- The `relpos` constructor flag: `False` / `True` / `"full"` in the source. -/
inductive Relpos
  | off
  | simple
  | full
deriving DecidableEq

/-- Angle from `get_sinusoid_encoding_table.cal_angle`:
`position / 10000 ** (2 * (hid_idx // 2) / dim)` (float division, real power). -/
def cal_angle (dim : ℕ) (pos : ℤ) (i : ℕ) : ℝ :=
  (pos : ℝ) / (10000 : ℝ) ^ (((2 * (i / 2) : ℕ) : ℝ) / (dim : ℝ))

/-- One entry of the sinusoid table: `sin` on even channels, `cos` on odd. -/
def sinusoid_entry (dim : ℕ) (pos : ℤ) (i : ℕ) : ℝ :=
  if i % 2 = 0 then Real.sin (cal_angle dim pos i) else Real.cos (cal_angle dim pos i)

/-- Models `get_sinusoid_encoding_table(seqlen, dim, start)`: row `r` holds the
sinusoid vector of position `start + r`.  The row index is totalised over ℤ
(the source table has rows `0 .. seqlen - start - 1`). -/
def get_sinusoid_encoding_table (dim : ℕ) (start : ℤ) (r : ℤ) (i : ℕ) : ℝ :=
  sinusoid_entry dim (start + r) i

/-- The relative-position matrix cached by `MultiHeadAttention.forward`
(source lines 157-166): entry `(i, j, d)` is
`relpos_emb(j - i - (klen - qlen) + maxlen)[d]`, i.e. the sinusoid vector of
offset `j - i - (klen - qlen)` (queries right-aligned against keys).
This is the raw embedding output, before any projection. -/
def relposVecTable (maxlen indim qlen klen : ℕ) : T3 :=
  fun i j d =>
    get_sinusoid_encoding_table indim (-(maxlen : ℤ))
      ((j : ℤ) - (i : ℤ) - ((klen : ℤ) - (qlen : ℤ)) + (maxlen : ℤ)) d

/-- The `MultiHeadAttention` module: configuration, learned weights and the
flags set by `set_cell_mode`.  Weight matrices/biases are those of
`q_proj`, `k_proj`, `v_proj`, `vw_proj` and (for `relpos = full`)
`relpos_k_proj`, `relpos_u`, `relpos_v`. -/
structure MHA where
  indim : ℕ
  kdim : ℕ
  vdim : ℕ
  numheads : ℕ
  bidir : Bool
  scale : Bool
  maxlen : ℕ
  relpos : Relpos
  Wq : T2
  bq : T1
  Wk : T2
  bk : T1
  Wv : T2
  bv : T1
  Wvw : T2
  bvw : T1
  Wrk : T2
  brk : T1
  relpos_u : T2
  relpos_v : T2
  cellMode : Bool
  horizon : Option ℕ
  lmMode : Bool

/-- Per-head key/query width: `self.d_k = kdim // numheads` (floor division). -/
def MHA.d_k (m : MHA) : ℕ := m.kdim / m.numheads

/-- Per-head value width: `self.d_v = vdim // numheads` (floor division). -/
def MHA.d_v (m : MHA) : ℕ := m.vdim / m.numheads

/-- Models `MultiHeadAttention.__init__`.  `kdim`/`vdim` default to `indim`.
The only failing path is Python integer division by `numheads = 0`; there is
no divisibility check in the source.  The randomly initialised weights are
supplied as arguments (their draw is external to this model); dropout rates
are omitted (dropout is identity here). -/
def mhaInit (indim : ℕ) (kdimOpt vdimOpt : Option ℕ) (bidir : Bool) (numheads : ℕ)
    (scale : Bool) (maxlen : ℕ) (relpos : Relpos)
    (Wq : T2) (bq : T1) (Wk : T2) (bk : T1) (Wv : T2) (bv : T1)
    (Wvw : T2) (bvw : T1) (Wrk : T2) (brk : T1) (u v : T2) :
    Except String MHA :=
  if numheads = 0 then .error "ZeroDivisionError"
  else .ok {
    indim := indim
    kdim := kdimOpt.getD indim
    vdim := vdimOpt.getD indim
    numheads := numheads
    bidir := bidir
    scale := scale
    maxlen := maxlen
    relpos := relpos
    Wq := Wq, bq := bq, Wk := Wk, bk := bk, Wv := Wv, bv := bv
    Wvw := Wvw, bvw := bvw, Wrk := Wrk, brk := brk
    relpos_u := u, relpos_v := v
    cellMode := false
    horizon := none
    lmMode := false }

/-- Models `MultiHeadAttention.set_cell_mode(val, horizon, lm_mode)`:
enabling asserts that a horizon is given and that the module is
unidirectional (in that order); then the three flags are stored. -/
def MHA.set_cell_mode (m : MHA) (val : Bool) (horizon : Option ℕ) (lm_mode : Bool) :
    Except String MHA :=
  if val then
    if horizon.isNone then .error "AssertionError: horizon is not None"
    else if m.bidir then .error "AssertionError: self.bidir == False"
    else .ok { m with cellMode := val, horizon := horizon, lmMode := lm_mode }
  else .ok { m with cellMode := val, horizon := horizon, lmMode := lm_mode }

/-- The incremental-decode history `(_prev_k, _prev_v)`: number of stored
steps and the two stacked tensors, indexed `(batch, step, head, channel)`. -/
structure Hist where
  len : ℕ
  k : T4
  v : T4

/-- One entry of the relative-position cache: the `(q_len, k_len)` key
(`_cache_relpos_sizes`), the device of the cached tensor, and the cached
(unprojected) relative-position vectors `_cache_relpos_vec`. -/
structure RelCache where
  qlen : ℕ
  klen : ℕ
  dev : ℕ
  vec : T3

/-- The mutable state of one `MultiHeadAttention` module. -/
structure MHAState where
  prev : Option Hist
  relCache : Option RelCache

/-- Fresh state: `_prev_k = _prev_v = None`, `_cache_relpos_vec = None`. -/
def initMHAState : MHAState := ⟨none, none⟩

/-- Models `MultiHeadAttention.epoch_reset`: clears the key/value history
(the relative-position cache is not touched). -/
def MHA.epoch_reset (_m : MHA) (st : MHAState) : MHAState :=
  { st with prev := none }

/-- Models `MultiHeadAttention.rec_reset`: a no-op when `lm_mode` is set,
otherwise `epoch_reset`. -/
def MHA.rec_reset (m : MHA) (st : MHAState) : MHAState :=
  if m.lmMode then st else m.epoch_reset st

/-- Models `torch.cat([a, b], 1)` where `a` has `n` rows along dim 1. -/
def catDim1 (n : ℕ) (a b : T4) : T4 :=
  fun x s h d => if s < n then a x s h d else b x (s - n) h d

/-- Models `MultiHeadAttention.update_prev(k, v)`.  `kn`/`vn` are the step
lengths `k.size(1)`/`v.size(1)` (asserted to be 1).  The new step is
appended first; only then is the horizon checked, so on overflow the
mutated (length `horizon + 1`) history is kept — the truncation after the
`raise` in the source (lines 122-123) is unreachable.  A `None` horizon
makes the Python comparison `int > None` a `TypeError`. -/
def MHA.update_prev (m : MHA) (prev : Option Hist) (kn vn : ℕ) (k v : T4) :
    Option Hist × Except String Hist :=
  if kn ≠ 1 then (prev, .error "AssertionError: k.size(1) == 1")
  else if vn ≠ 1 then (prev, .error "AssertionError: v.size(1) == 1")
  else
    let newHist : Hist :=
      match prev with
      | none => ⟨1, k, v⟩
      | some p => ⟨p.len + 1, catDim1 p.len p.k k, catDim1 p.len p.v v⟩
    match m.horizon with
    | none => (some newHist, .error "TypeError: int > NoneType")
    | some hz =>
        if hz < newHist.len then (some newHist, .error "cannot go beyond horizon")
        else (some newHist, .ok newHist)

/-- Content attention scores, `torch.einsum("bshd,bzhd->bhsz", (q, k))`:
`w b h i j = ∑ d, q b i h d * k b j h d`. -/
def contentScores (dk : ℕ) (q kE : T4) : T4 :=
  fun b h i j => ∑ d ∈ Finset.range dk, q b i h d * kE b j h d

/-- Relative-position scores, `torch.einsum("bshd,szhd->bhsz", (q, rh))`
where `rh` is indexed `(i, j, head, channel)`. -/
def relScores (dk : ℕ) (q : T4) (rh : T4) : T4 :=
  fun b h i j => ∑ d ∈ Finset.range dk, q b i h d * rh i j h d

/-- Raw scores: content scores, plus the simple relative-position term when
enabled, plus (in `full` mode) the `u`-bias term `w_uR b h j` (broadcast
over queries) and the `v`-bias term `w_vR h i j` (broadcast over batch). -/
def fullScores (m : MHA) (q kE : T4) (relHeads : Option T4)
    (fullTerms : Option (T3 × T3)) : T4 :=
  fun b h i j =>
    contentScores m.d_k q kE b h i j
      + (match relHeads with
         | none => 0
         | some rh => relScores m.d_k q rh b h i j)
      + (match fullTerms with
         | none => 0
         | some ft => ft.1 b h j + ft.2 h i j)

/-- Models `w = w / math.sqrt(self.d_k)` when the scale flag is set. -/
def scaleScores (m : MHA) (w : T4) : T4 :=
  if m.scale then fun b h i j => w b h i j / Real.sqrt (m.d_k : ℝ) else w

/-- The causal mask of `forward` (source lines 202-208): `tril(kn, kn)` with
its last `qn` rows kept (right-aligned queries), so entry `(i, j)` is 1 iff
`j ≤ i + (kn - qn)`, written over ℕ as `j + qn ≤ i + kn`. -/
def causalMask (qn kn : ℕ) : T4 :=
  fun _ _ i j => if j + qn ≤ i + kn then 1 else 0

/-- The combined mask `wholemask`: the key-padding mask broadcast over heads
and query positions, multiplied by the causal mask when unidirectional;
`none` when bidirectional and no padding mask was given. -/
def wholeMask (m : MHA) (mask : Option T2) (qn kn : ℕ) : Option T4 :=
  let padm : Option T4 := mask.map (fun mk => fun b _ _ j => mk b j)
  if m.bidir then padm
  else some (match padm with
             | none => causalMask qn kn
             | some p => fun b h i j => p b h i j * causalMask qn kn b h i j)

/-- A missing mask behaves as the all-ones mask. -/
def maskFun : Option T4 → T4
  | none => fun _ _ _ _ => 1
  | some mm => mm

/-- Masked softmax over the key dimension: the real semantics of
`Softmax(dim=-1)(w + log mm)` for a 0/1 mask `mm` under IEEE arithmetic. -/
def softmaxW (kn : ℕ) (mm w : T4) : T4 :=
  fun b h i j =>
    (mm b h i j * Real.exp (w b h i j)) /
      ∑ z ∈ Finset.range kn, mm b h i z * Real.exp (w b h i z)

/-- Value mixing, `torch.einsum("bhsz,bzhd->bshd", (w, v))`. -/
def mixV (kn : ℕ) (w vE : T4) : T4 :=
  fun b s h d => ∑ j ∈ Finset.range kn, w b h s j * vE b j h d

/-- Head flattening followed by the output projection `vw_proj`. -/
def outProj (m : MHA) (vw : T4) : T3 :=
  fun b s e =>
    linear m.Wvw m.bvw (m.numheads * m.d_v) (fun c => vw b s (c / m.d_v) (c % m.d_v)) e

/-- The score-to-output tail of `forward` (source lines 179-226): raw scores,
scaling, mask application, softmax, value mixing, output projection.
Returns the post-softmax attention weights next to the output (the weights
are internal in the source; they are exposed here so that properties about
them can be stated).  Both dropouts are identity. -/
def attnTail (m : MHA) (qn kn : ℕ) (q kE vE : T4) (relHeads : Option T4)
    (fullTerms : Option (T3 × T3)) (mask : Option T2) : T4 × T3 :=
  let w := softmaxW kn (maskFun (wholeMask m mask qn kn))
    (scaleScores m (fullScores m q kE relHeads fullTerms))
  (w, outProj m (mixV kn w vE))

/-- Cache-miss test of the relative-position cache (source lines 155-156):
recompute when the stored `(q_len, k_len)` key differs or the cached tensor
lives on another device (initially the sizes are `None`, which differs from
any key). -/
def relposNeedsRecompute (cache : Option RelCache) (qn kn dev : ℕ) : Bool :=
  match cache with
  | none => true
  | some c => !(decide (c.qlen = qn ∧ c.klen = kn ∧ c.dev = dev))

/-- Cache update (source lines 155-166): on a miss, assert
`relpos_offset >= 0` (i.e. `kn ≥ qn`) and store the freshly built
relative-position matrix — unprojected — under key `(qn, kn)` on `dev`;
on a hit the cache is returned untouched. -/
def relposUpdateCache (m : MHA) (cache : Option RelCache) (qn kn dev : ℕ) :
    Except String (Option RelCache) :=
  if relposNeedsRecompute cache qn kn dev then
    if kn < qn then .error "AssertionError: relpos_offset >= 0"
    else .ok (some ⟨qn, kn, dev, relposVecTable m.maxlen m.indim qn kn⟩)
  else .ok cache

/-- The cache after a successful update: the fresh entry on a miss, the old
cache untouched on a hit. -/
def cacheAfter (m : MHA) (cache : Option RelCache) (qn kn dev : ℕ) : Option RelCache :=
  if relposNeedsRecompute cache qn kn dev then
    some ⟨qn, kn, dev, relposVecTable m.maxlen m.indim qn kn⟩
  else cache

/-- The cached tensor of a relative-position cache entry (`None` never has
its `vec` read in the source; zero stands in). -/
def cacheVec : Option RelCache → T3
  | some c => c.vec
  | none => fun _ _ _ => 0

/-- Per-head view of the cached relative-position vectors after projecting
them through `k_proj` (source line 167, executed on every call). -/
def relHeadsOf (m : MHA) (vec : T3) : T4 :=
  fun i j h d => linear m.Wk m.bk m.indim (vec i j) (h * m.d_k + d)

/-- The `full`-mode `u`-bias term `w_uR` (source lines 174, 187): the learned
per-head key bias dotted with the `relpos_k_proj` projection of the raw key
source, broadcast over query positions. -/
def fullWuR (m : MHA) (ksrc : T3) : T3 :=
  fun b h z => ∑ d ∈ Finset.range m.d_k,
    m.relpos_u h d * linear m.Wrk m.brk m.indim (ksrc b z) (h * m.d_k + d)

/-- The `full`-mode `v`-bias term `w_vR` (source lines 175-176, 188): the
learned per-head position bias dotted with the `relpos_k_proj` projection of
the relative-position vectors, broadcast over the batch. -/
def fullWvR (m : MHA) (vec : T3) : T3 :=
  fun h i j => ∑ d ∈ Finset.range m.d_k,
    m.relpos_v h d * linear m.Wrk m.brk m.indim (vec i j) (h * m.d_k + d)

/-- The relative-position region and tail of `forward` (source lines
151-226), entered after the projections and the optional history update.
`kn` is the effective key length, `kk` the raw key source with its length
(used by `relpos_k_proj` in `full` mode).  Note the cached vectors are
projected through `k_proj` afresh on every call (source line 167) — only
the embedding lookup is cached.  In `full` mode the source raises when in
cell mode (after the cache update). -/
def mhaRel (m : MHA) (st : MHAState) (qn kn : ℕ) (kk : ℕ × T3) (q kE vE : T4)
    (mask : Option T2) (dev : ℕ) : Except String (T4 × T3) × MHAState :=
  if m.relpos = Relpos.off then
    (.ok (attnTail m qn kn q kE vE none none mask), st)
  else
    match relposUpdateCache m st.relCache qn kn dev with
    | .error e => (.error e, st)
    | .ok cache' =>
      let st' := { st with relCache := cache' }
      let relHeads : T4 := relHeadsOf m (cacheVec cache')
      match m.relpos with
      | Relpos.full =>
        if m.cellMode then
          (.error "implementation wrong: _k used but in cell mode it is bad", st')
        else
          (.ok (attnTail m qn kn q kE vE (some relHeads)
            (some (fullWuR m kk.2, fullWvR m (cacheVec cache'))) mask), st')
      | _ => (.ok (attnTail m qn kn q kE vE (some relHeads) none mask), st')

/-- Models `MultiHeadAttention.forward(x, k, v, mask)`, but returning the
post-softmax attention weights next to the output.  `qn` is `x.size(1)`;
`kIn`/`vIn` carry the optional key/value sources with their lengths
(`k` defaults to `x`, `v` to the key source).  The first check rejects a
mask in cell mode before any computation; in cell mode the projected step
is appended to the history (whose mutation survives a later error). -/
def MHA.forwardFull (m : MHA) (st : MHAState) (qn : ℕ) (x : T3)
    (kIn vIn : Option (ℕ × T3)) (mask : Option T2) (dev : ℕ) :
    Except String (T4 × T3) × MHAState :=
  if m.cellMode && mask.isSome then
    (.error "NotImplemented: mask accumulation in cell mode", st)
  else
    let kk := kIn.getD (qn, x)
    let vv := vIn.getD kk
    let q : T4 := fun b s h d => linear m.Wq m.bq m.indim (x b s) (h * m.d_k + d)
    let k0 : T4 := fun b s h d => linear m.Wk m.bk m.indim (kk.2 b s) (h * m.d_k + d)
    let v0 : T4 := fun b s h d => linear m.Wv m.bv m.indim (vv.2 b s) (h * m.d_v + d)
    if m.cellMode then
      match m.update_prev st.prev kk.1 vv.1 k0 v0 with
      | (p, .error e) => (.error e, { st with prev := p })
      | (p, .ok hist) =>
          mhaRel m { st with prev := p } qn hist.len kk q hist.k hist.v mask dev
    else
      mhaRel m st qn kk.1 kk q k0 v0 mask dev

/-- Models `MultiHeadAttention.forward` as in the source: only the output
tensor is returned. -/
def MHA.forward (m : MHA) (st : MHAState) (qn : ℕ) (x : T3)
    (kIn vIn : Option (ℕ × T3)) (mask : Option T2) (dev : ℕ) :
    Except String T3 × MHAState :=
  let r := m.forwardFull st qn x kIn vIn mask dev
  (r.1.map Prod.snd, r.2)

/-- Boolean success test for a fallible call. -/
def exceptOk {α : Type} : Except String α → Bool
  | .ok _ => true
  | .error _ => false

/-- Extracts the output tensor of a successful call (zero tensor on error). -/
def getOut : Except String T3 → T3
  | .ok y => y
  | .error _ => fun _ _ _ => 0

/-- Extracts the post-softmax attention weights of a successful call. -/
def getW : Except String (T4 × T3) → T4
  | .ok r => r.1
  | .error _ => fun _ _ _ _ => 0

/-- Query projection reshaped to heads, `q_proj(x).view(.., numheads, d_k)`. -/
def projQ (m : MHA) (x : T3) : T4 :=
  fun b s h d => linear m.Wq m.bq m.indim (x b s) (h * m.d_k + d)

/-- Key projection reshaped to heads. -/
def projK (m : MHA) (x : T3) : T4 :=
  fun b s h d => linear m.Wk m.bk m.indim (x b s) (h * m.d_k + d)

/-- Value projection reshaped to heads. -/
def projV (m : MHA) (x : T3) : T4 :=
  fun b s h d => linear m.Wv m.bv m.indim (x b s) (h * m.d_v + d)

/-- The module reconfigured for incremental decoding: what a successful
`set_cell_mode(True, horizon=hz)` produces.  All weights and the scale,
relpos and bidir flags are untouched. -/
def cellConfig (m : MHA) (hz : ℕ) : MHA :=
  { m with cellMode := true, horizon := some hz, lmMode := false }

/-- One incremental step: a query of length 1, default key/value sources,
no mask. -/
def cellStep (m : MHA) (st : MHAState) (xt : T2) (dev : ℕ) :
    Except String T3 × MHAState :=
  m.forward st 1 (fun b _ d => xt b d) none none none dev

/-- The state after `t` incremental steps that consume rows `0 .. t-1` of
`x`, starting from the fresh state. -/
def cellRunState (m : MHA) (x : T3) (dev : ℕ) : ℕ → MHAState
  | 0 => initMHAState
  | t + 1 => (cellStep m (cellRunState m x dev t) (fun b d => x b t d) dev).2

/-- The result of incremental step `t` (0-based; it consumes row `t` of `x`). -/
def cellStepOut (m : MHA) (x : T3) (dev : ℕ) (t : ℕ) : Except String T3 :=
  (cellStep m (cellRunState m x dev t) (fun b d => x b t d) dev).1

/-- Closed form of the stacked key history after `t` steps on input `x`:
row `s` holds the key projection of `x` row `min s (t-1)`. -/
def histK (m : MHA) (x : T3) (t : ℕ) : T4 :=
  fun b s h d => linear m.Wk m.bk m.indim (x b (min s (t - 1))) (h * m.d_k + d)

/-- Closed form of the stacked value history after `t` steps on input `x`. -/
def histV (m : MHA) (x : T3) (t : ℕ) : T4 :=
  fun b s h d => linear m.Wv m.bv m.indim (x b (min s (t - 1))) (h * m.d_v + d)

/-- Query projection of a single-step (length-1) input. -/
def stepQ (m : MHA) (xt : T2) : T4 :=
  fun b _ h d => linear m.Wq m.bq m.indim (xt b) (h * m.d_k + d)

/-- Key projection of a single-step (length-1) input. -/
def stepK (m : MHA) (xt : T2) : T4 :=
  fun b _ h d => linear m.Wk m.bk m.indim (xt b) (h * m.d_k + d)

/-- Value projection of a single-step (length-1) input. -/
def stepV (m : MHA) (xt : T2) : T4 :=
  fun b _ h d => linear m.Wv m.bv m.indim (xt b) (h * m.d_v + d)

/-- The history appended by one incremental step. -/
def appendHist (m : MHA) (prev : Option Hist) (xt : T2) : Hist :=
  match prev with
  | none => ⟨1, stepK m xt, stepV m xt⟩
  | some p => ⟨p.len + 1, catDim1 p.len p.k (stepK m xt), catDim1 p.len p.v (stepV m xt)⟩

variable {X Y C M O σ : Type}

/-- The mutable state of a `TS2S` seq2seq driver over abstract input type
`X`, context type `C`, mask type `M` and decoder state `σ`: the cell-mode
flag, the cached source/context/context-mask triple (`_x`, `_ctx`,
`_ctxmask`; `_ctx is None` is the not-yet-cached test) and the state of the
decoder sub-module. -/
structure TS2SState (X C M σ : Type) where
  cellMode : Bool
  cachedX : Option X
  cachedCtx : Option C
  cachedCtxMask : Option M
  decState : σ

/-- Models `TS2S.rec_reset`: clears the cached triple. -/
def ts2sRecReset (st : TS2SState X C M σ) : TS2SState X C M σ :=
  { st with cachedX := none, cachedCtx := none, cachedCtxMask := none }

/-- Models `TS2S.set_cell_mode`: `lm_mode=True` is rejected; otherwise the
flag is stored and propagated to the decoder (`setDec` stands for the
decoder's own `set_cell_mode`). -/
def ts2sSetCellMode (st : TS2SState X C M σ) (val : Bool) (lm_mode : Bool)
    (setDec : σ → σ) : Except String (TS2SState X C M σ) :=
  if lm_mode then .error "lm_mode=True is not supported in transformer-based seq2seq"
  else .ok { st with cellMode := val, decState := setDec st.decState }

/-- Models `TS2S.forward(x, y, xmask, ymask)` with the encoder and decoder
sub-modules abstracted as function parameters (`enc` is stateless in a
forward pass; `dec` threads its own state).  In cell mode the first call
encodes and caches `(x, ctx, xmask)`; later calls pass the cached context
and context mask to the decoder, ignoring the `x`/`xmask` arguments. -/
def ts2sForward (enc : X → Option M → C)
    (dec : σ → Y → C → Option M → Option M → O × σ)
    (st : TS2SState X C M σ) (x : X) (y : Y) (xmask ymask : Option M) :
    O × TS2SState X C M σ :=
  if st.cellMode then
    match st.cachedCtx with
    | none =>
        let c := enc x xmask
        let r := dec st.decState y c ymask xmask
        (r.1, { st with cachedX := some x, cachedCtx := some c,
                        cachedCtxMask := xmask, decState := r.2 })
    | some c =>
        let r := dec st.decState y c ymask st.cachedCtxMask
        (r.1, { st with decState := r.2 })
  else
    let c := enc x xmask
    let r := dec st.decState y c ymask xmask
    (r.1, { st with decState := r.2 })

/-- Zero vector, used to instantiate witnesses. -/
def zV : T1 := fun _ => 0

/-- Zero matrix, used to instantiate witnesses. -/
def zM : T2 := fun _ _ => 0

/-- Zero rank-3 tensor, used to instantiate witnesses. -/
def zX : T3 := fun _ _ _ => 0

/-- A concrete one-head module used to instantiate witnesses. -/
def mW : MHA :=
  { indim := 1, kdim := 1, vdim := 1, numheads := 1, bidir := false,
    scale := false, maxlen := 2, relpos := Relpos.off,
    Wq := zM, bq := zV, Wk := zM, bk := zV, Wv := zM, bv := zV,
    Wvw := zM, bvw := zV, Wrk := zM, brk := zV, relpos_u := zM, relpos_v := zM,
    cellMode := false, horizon := none, lmMode := false }

/-- A concrete one-head module with simple relative positions and key
projection weight 2, used to exhibit the relative-position cache contents. -/
def mWr : MHA :=
  { indim := 1, kdim := 1, vdim := 1, numheads := 1, bidir := true,
    scale := false, maxlen := 2, relpos := Relpos.simple,
    Wq := zM, bq := zV, Wk := fun _ _ => 2, bk := zV, Wv := zM, bv := zV,
    Wvw := zM, bvw := zV, Wrk := zM, brk := zV, relpos_u := zM, relpos_v := zM,
    cellMode := false, horizon := none, lmMode := false }

/-- C3 counterexample: with `kdim = vdim = 5` and `numheads = 2` (which does
not divide 5) construction succeeds — `__init__` never checks divisibility,
it floor-divides (`d_k = 2` here), so the claimed construction error does
not exist. -/
theorem mhaInit_accepts_indivisible_widths :
    ¬ (2 ∣ 5) ∧
      exceptOk (mhaInit 4 (some 5) (some 5) true 2 true 512 Relpos.off
        zM zV zM zV zM zV zM zV zM zV zM zM) = true := by
  exact ⟨by decide, rfl⟩

/-- C3 amended: construction never validates divisibility; for every head
count `numheads ≠ 0` (zero raises Python's division error) and any widths —
divisible or not — it succeeds, with the per-head widths given by floor
division. -/
theorem mhaInit_total_floor_div (indim : ℕ) (kdimOpt vdimOpt : Option ℕ)
    (bidir : Bool) (numheads : ℕ) (scale : Bool) (maxlen : ℕ) (relpos : Relpos)
    (Wq : T2) (bq : T1) (Wk : T2) (bk : T1) (Wv : T2) (bv : T1)
    (Wvw : T2) (bvw : T1) (Wrk : T2) (brk : T1) (u v : T2)
    (h : numheads ≠ 0) :
    ∃ mm : MHA,
      mhaInit indim kdimOpt vdimOpt bidir numheads scale maxlen relpos
          Wq bq Wk bk Wv bv Wvw bvw Wrk brk u v = .ok mm
        ∧ mm.d_k = kdimOpt.getD indim / numheads
        ∧ mm.d_v = vdimOpt.getD indim / numheads := by
  unfold mhaInit
  rw [if_neg h]
  exact ⟨_, rfl, rfl, rfl⟩

/-- Witness for the amended C3 theorem at a concrete indivisible input. -/
theorem mhaInit_total_floor_div_witness :
    ∃ mm : MHA,
      mhaInit 4 (some 5) (some 5) true 2 true 512 Relpos.off
          zM zV zM zV zM zV zM zV zM zV zM zM = .ok mm
        ∧ mm.d_k = (some 5).getD 4 / 2
        ∧ mm.d_v = (some 5).getD 4 / 2 :=
  mhaInit_total_floor_div 4 (some 5) (some 5) true 2 true 512 Relpos.off
    zM zV zM zV zM zV zM zV zM zV zM zM (by decide)

/-- C7: calling forward in cell mode with a non-None key mask fails with the
mask-accumulation error, and the returned state is exactly the input state —
the check precedes every projection and the history append, so nothing is
mutated. -/
theorem cell_mask_rejected_no_mutation (m : MHA) (st : MHAState) (qn : ℕ)
    (x : T3) (kIn vIn : Option (ℕ × T3)) (mk : T2) (dev : ℕ)
    (hc : m.cellMode = true) :
    m.forwardFull st qn x kIn vIn (some mk) dev
      = (.error "NotImplemented: mask accumulation in cell mode", st) := by
  unfold MHA.forwardFull
  simp [hc]

/-- Witness for C7 at a concrete cell-mode module and state. -/
theorem cell_mask_rejected_no_mutation_witness :
    (cellConfig mW 3).forwardFull initMHAState 1 zX none none (some zM) 0
      = (.error "NotImplemented: mask accumulation in cell mode", initMHAState) :=
  cell_mask_rejected_no_mutation (cellConfig mW 3) initMHAState 1 zX none none zM 0 rfl

/-- C8: enabling cell mode fails on a bidirectional module and fails without
a horizon; it succeeds on a unidirectional module with a horizon given. -/
theorem set_cell_mode_requirements (m : MHA) (hzOpt : Option ℕ) (hz : ℕ) (lm : Bool) :
    (m.bidir = true → exceptOk (m.set_cell_mode true hzOpt lm) = false)
    ∧ exceptOk (m.set_cell_mode true none lm) = false
    ∧ (m.bidir = false → exceptOk (m.set_cell_mode true (some hz) lm) = true) := by
  refine ⟨fun hb => ?_, ?_, fun hb => ?_⟩
  · cases hzOpt <;> simp [MHA.set_cell_mode, hb, exceptOk]
  · simp [MHA.set_cell_mode, exceptOk]
  · simp [MHA.set_cell_mode, hb, exceptOk]

/-- Witness for C8: enabling succeeds on the concrete unidirectional module. -/
theorem set_cell_mode_requirements_witness :
    exceptOk (mW.set_cell_mode true (some 3) false) = true :=
  (set_cell_mode_requirements mW (some 3) 3 false).2.2 rfl

/-- C9: in cell mode, the first forward call encodes the source, caches the
encoder output and the context mask, and feeds them to the decoder; any
later call (cache filled) is independent of the supplied source, source
mask and even of the encoder itself, passes exactly the cached pair to the
decoder, and leaves the cached pair unchanged. -/
theorem ts2s_caches_encoder_output (enc enc' : X → Option M → C)
    (dec : σ → Y → C → Option M → Option M → O × σ)
    (st : TS2SState X C M σ) (x x' : X) (y : Y) (xmask xmask' ymask : Option M)
    (hcell : st.cellMode = true) :
    (st.cachedCtx = none →
      (ts2sForward enc dec st x y xmask ymask).2.cachedCtx = some (enc x xmask)
      ∧ (ts2sForward enc dec st x y xmask ymask).2.cachedCtxMask = xmask
      ∧ (ts2sForward enc dec st x y xmask ymask).1
          = (dec st.decState y (enc x xmask) ymask xmask).1)
    ∧ (∀ c, st.cachedCtx = some c →
        ts2sForward enc dec st x y xmask ymask
          = ts2sForward enc' dec st x' y xmask' ymask
        ∧ (ts2sForward enc dec st x y xmask ymask).1
            = (dec st.decState y c ymask st.cachedCtxMask).1
        ∧ (ts2sForward enc dec st x y xmask ymask).2.cachedCtx = some c
        ∧ (ts2sForward enc dec st x y xmask ymask).2.cachedCtxMask
            = st.cachedCtxMask) := by
  constructor
  · intro hnone
    simp [ts2sForward, hcell, hnone]
  · intro c hsome
    simp [ts2sForward, hcell, hsome]

/-- Witness for C9 at concrete types and a filled cache. -/
theorem ts2s_caches_encoder_output_witness :
    (ts2sForward (fun (x : ℕ) (_ : Option ℕ) => x)
        (fun (s : ℕ) (y : ℕ) (c : ℕ) (_ _ : Option ℕ) => (c + y, s))
        ⟨true, some 5, some 7, some 9, 0⟩ 11 13 (some 1) none)
      = (ts2sForward (fun (x : ℕ) (_ : Option ℕ) => x + 100)
        (fun (s : ℕ) (y : ℕ) (c : ℕ) (_ _ : Option ℕ) => (c + y, s))
        ⟨true, some 5, some 7, some 9, 0⟩ 12 13 (some 2) none) :=
  ((ts2s_caches_encoder_output (fun x _ => x) (fun x _ => x + 100)
      (fun s y c _ _ => (c + y, s)) ⟨true, some 5, some 7, some 9, 0⟩
      11 12 13 (some 1) (some 2) none rfl).2 7 rfl).1

lemma mhaRel_prev (m : MHA) (st : MHAState) (qn kn : ℕ) (kk : ℕ × T3) (q kE vE : T4)
    (mask : Option T2) (dev : ℕ) :
    (mhaRel m st qn kn kk q kE vE mask dev).2.prev = st.prev := by
  unfold mhaRel
  repeat' split
  all_goals rfl

lemma mhaRel_off (m : MHA) (hro : m.relpos = Relpos.off) (st : MHAState) (qn kn : ℕ)
    (kk : ℕ × T3) (q kE vE : T4) (mask : Option T2) (dev : ℕ) :
    mhaRel m st qn kn kk q kE vE mask dev
      = (.ok (attnTail m qn kn q kE vE none none mask), st) := by
  unfold mhaRel
  rw [if_pos hro]

lemma relposUpdateCache_eval (m : MHA) (cache : Option RelCache) (qn kn dev : ℕ)
    (hqk : ¬ kn < qn) :
    relposUpdateCache m cache qn kn dev = .ok (cacheAfter m cache qn kn dev) := by
  unfold relposUpdateCache cacheAfter
  by_cases h : relposNeedsRecompute cache qn kn dev
  · rw [if_pos h, if_neg hqk, if_pos h]
  · rw [if_neg h, if_neg h]

lemma mhaRel_simple (m : MHA) (hrs : m.relpos = Relpos.simple) (st : MHAState)
    (qn kn : ℕ) (kk : ℕ × T3) (q kE vE : T4) (mask : Option T2) (dev : ℕ)
    (hqk : ¬ kn < qn) :
    mhaRel m st qn kn kk q kE vE mask dev
      = (.ok (attnTail m qn kn q kE vE
            (some (relHeadsOf m (cacheVec (cacheAfter m st.relCache qn kn dev)))) none mask),
         { st with relCache := cacheAfter m st.relCache qn kn dev }) := by
  unfold mhaRel
  rw [if_neg (by rw [hrs]; exact fun h => Relpos.noConfusion h)]
  rw [relposUpdateCache_eval m st.relCache qn kn dev hqk]
  rw [hrs]

lemma cellStep_eval (m : MHA) (hc : m.cellMode = true) (hz : ℕ)
    (hhz : m.horizon = some hz) (st : MHAState) (xt : T2) (dev : ℕ) :
    cellStep m st xt dev
      = (if hz < (appendHist m st.prev xt).len then
          (.error "cannot go beyond horizon", { st with prev := some (appendHist m st.prev xt) })
        else
          ((mhaRel m { st with prev := some (appendHist m st.prev xt) } 1
              (appendHist m st.prev xt).len (1, fun b _ d => xt b d) (stepQ m xt)
              (appendHist m st.prev xt).k (appendHist m st.prev xt).v none dev).1.map Prod.snd,
           (mhaRel m { st with prev := some (appendHist m st.prev xt) } 1
              (appendHist m st.prev xt).len (1, fun b _ d => xt b d) (stepQ m xt)
              (appendHist m st.prev xt).k (appendHist m st.prev xt).v none dev).2)) := by
  unfold cellStep MHA.forward MHA.forwardFull MHA.update_prev
  simp only [hc, hhz, Option.isSome_none, Bool.and_false, Bool.false_eq_true, if_false,
    Option.getD_none, Option.getD_some, if_true, Bool.true_and]
  cases hp : st.prev with
  | none =>
      simp only [appendHist, hp]
      by_cases hlen : hz < 1
      · rw [if_pos hlen, if_pos hlen]
        rfl
      · rw [if_neg hlen, if_neg hlen]
        rfl
  | some p =>
      simp only [appendHist, hp]
      by_cases hlen : hz < p.len + 1
      · rw [if_pos hlen, if_pos hlen]
        rfl
      · rw [if_neg hlen, if_neg hlen]
        rfl

lemma histK_one (m : MHA) (x : T3) : histK m x 1 = stepK m (fun b d => x b 0 d) := by
  funext b s h d
  simp [histK, stepK]

lemma histV_one (m : MHA) (x : T3) : histV m x 1 = stepV m (fun b d => x b 0 d) := by
  funext b s h d
  simp [histV, stepV]

lemma catDim1_hist (W : T2) (bb : T1) (indim dh : ℕ) (x : T3) (t : ℕ) (ht : 1 ≤ t) :
    catDim1 t (fun b s h d => linear W bb indim (x b (min s (t - 1))) (h * dh + d))
      (fun b _ h d => linear W bb indim (x b t) (h * dh + d))
      = fun b s h d => linear W bb indim (x b (min s t)) (h * dh + d) := by
  funext b s h d
  dsimp only [catDim1]
  by_cases hs : s < t
  · rw [if_pos hs, Nat.min_eq_left (show s ≤ t - 1 by omega),
      Nat.min_eq_left (show s ≤ t by omega)]
  · rw [if_neg hs, Nat.min_eq_right (show t ≤ s by omega)]

lemma appendHist_at (m : MHA) (x : T3) (t : ℕ) :
    appendHist m (if t = 0 then none else some ⟨t, histK m x t, histV m x t⟩)
        (fun b d => x b t d)
      = ⟨t + 1, histK m x (t + 1), histV m x (t + 1)⟩ := by
  by_cases ht : t = 0
  · subst ht
    rw [if_pos rfl, histK_one, histV_one]
    rfl
  · rw [if_neg ht]
    show Hist.mk (t + 1) (catDim1 t (histK m x t) (stepK m (fun b d => x b t d)))
        (catDim1 t (histV m x t) (stepV m (fun b d => x b t d))) = _
    have hk : catDim1 t (histK m x t) (stepK m (fun b d => x b t d)) = histK m x (t + 1) := by
      show catDim1 t (fun b s h d => linear m.Wk m.bk m.indim (x b (min s (t - 1))) (h * m.d_k + d))
          (fun b _ h d => linear m.Wk m.bk m.indim (x b t) (h * m.d_k + d)) = _
      rw [catDim1_hist m.Wk m.bk m.indim m.d_k x t (by omega)]
      rfl
    have hv : catDim1 t (histV m x t) (stepV m (fun b d => x b t d)) = histV m x (t + 1) := by
      show catDim1 t (fun b s h d => linear m.Wv m.bv m.indim (x b (min s (t - 1))) (h * m.d_v + d))
          (fun b _ h d => linear m.Wv m.bv m.indim (x b t) (h * m.d_v + d)) = _
      rw [catDim1_hist m.Wv m.bv m.indim m.d_v x t (by omega)]
      rfl
    rw [hk, hv]

lemma cellRunState_prev (m : MHA) (hc : m.cellMode = true) (hz : ℕ)
    (hhz : m.horizon = some hz) (x : T3) (dev : ℕ) :
    ∀ t, (cellRunState m x dev t).prev
      = if t = 0 then none else some ⟨t, histK m x t, histV m x t⟩ := by
  intro t
  induction t with
  | zero => rfl
  | succ t IH =>
      show (cellStep m (cellRunState m x dev t) (fun b d => x b t d) dev).2.prev = _
      rw [cellStep_eval m hc hz hhz]
      have happ : appendHist m (cellRunState m x dev t).prev (fun b d => x b t d)
          = ⟨t + 1, histK m x (t + 1), histV m x (t + 1)⟩ := by
        rw [IH]
        exact appendHist_at m x t
      by_cases hlen : hz < (appendHist m (cellRunState m x dev t).prev (fun b d => x b t d)).len
      · rw [if_pos hlen]
        show some (appendHist m (cellRunState m x dev t).prev (fun b d => x b t d)) = _
        rw [happ, if_neg (Nat.succ_ne_zero t)]
      · rw [if_neg hlen]
        show (mhaRel m _ 1 _ _ _ _ _ none dev).2.prev = _
        rw [mhaRel_prev]
        show some (appendHist m (cellRunState m x dev t).prev (fun b d => x b t d)) = _
        rw [happ, if_neg (Nat.succ_ne_zero t)]

lemma appendHist_len (m : MHA) (hc : m.cellMode = true) (hz : ℕ)
    (hhz : m.horizon = some hz) (x : T3) (dev : ℕ) (t : ℕ) (xt : T2) :
    (appendHist m (cellRunState m x dev t).prev xt).len = t + 1 := by
  rw [cellRunState_prev m hc hz hhz x dev t]
  by_cases ht : t = 0
  · subst ht
    rfl
  · rw [if_neg ht]
    rfl

lemma cellStepOut_horizon_error (m : MHA) (hc : m.cellMode = true) (hz : ℕ)
    (hhz : m.horizon = some hz) (x : T3) (dev : ℕ) (t : ℕ) (ht : hz < t + 1) :
    cellStepOut m x dev t = .error "cannot go beyond horizon" := by
  unfold cellStepOut
  rw [cellStep_eval m hc hz hhz]
  rw [if_pos (by rw [appendHist_len m hc hz hhz]; exact ht)]

lemma cellStepOut_succeeds (m : MHA) (hc : m.cellMode = true)
    (hro : m.relpos ≠ Relpos.full) (hz : ℕ) (hhz : m.horizon = some hz)
    (x : T3) (dev : ℕ) (t : ℕ) (ht : t + 1 ≤ hz) :
    exceptOk (cellStepOut m x dev t) = true := by
  unfold cellStepOut
  rw [cellStep_eval m hc hz hhz]
  rw [if_neg (by rw [appendHist_len m hc hz hhz]; omega)]
  cases hr : m.relpos with
  | off =>
      rw [mhaRel_off m hr]
      rfl
  | simple =>
      rw [mhaRel_simple m hr _ _ _ _ _ _ _ _ _
        (by rw [appendHist_len m hc hz hhz]; omega)]
      rfl
  | full => exact absurd hr hro

/-- C2: with the module configured for cell mode at horizon `hz`, the first
`hz` incremental steps all succeed and the step after them fails
(the `relpos = full` configuration is excluded: it cannot run in cell mode
at all). -/
theorem horizon_enforcement (m : MHA) (hro : m.relpos ≠ Relpos.full) (hz : ℕ)
    (x : T3) (dev : ℕ) :
    (∀ t, t < hz → exceptOk (cellStepOut (cellConfig m hz) x dev t) = true)
    ∧ exceptOk (cellStepOut (cellConfig m hz) x dev hz) = false := by
  constructor
  · intro t ht
    exact cellStepOut_succeeds (cellConfig m hz) rfl hro hz rfl x dev t (by omega)
  · rw [cellStepOut_horizon_error (cellConfig m hz) rfl hz rfl x dev hz (by omega)]
    rfl

/-- Witness for C2 at a concrete module and horizon. -/
theorem horizon_enforcement_witness :
    exceptOk (cellStepOut (cellConfig mW 2) zX 0 2) = false :=
  (horizon_enforcement mW (by decide) 2 zX 0).2

lemma cacheAfter_fresh (m : MHA) (qn kn dev : ℕ) :
    cacheAfter m none qn kn dev
      = some ⟨qn, kn, dev, relposVecTable m.maxlen m.indim qn kn⟩ := rfl

lemma cellRunState_cache_simple (m : MHA) (hc : m.cellMode = true)
    (hrs : m.relpos = Relpos.simple) (hz : ℕ) (hhz : m.horizon = some hz)
    (x : T3) (dev : ℕ) :
    ∀ t, t ≤ hz → (cellRunState m x dev t).relCache
      = if t = 0 then none
        else some ⟨1, t, dev, relposVecTable m.maxlen m.indim 1 t⟩ := by
  intro t
  induction t with
  | zero => intro _; rfl
  | succ t IH =>
      intro ht
      show (cellStep m (cellRunState m x dev t) (fun b d => x b t d) dev).2.relCache = _
      rw [cellStep_eval m hc hz hhz]
      rw [if_neg (by rw [appendHist_len m hc hz hhz]; omega)]
      rw [mhaRel_simple m hrs _ _ _ _ _ _ _ _ _
        (by rw [appendHist_len m hc hz hhz]; omega)]
      show cacheAfter m (cellRunState m x dev t).relCache 1
          (appendHist m (cellRunState m x dev t).prev (fun b d => x b t d)).len dev = _
      rw [appendHist_len m hc hz hhz, IH (by omega)]
      by_cases ht0 : t = 0
      · subst ht0
        rw [if_pos rfl, cacheAfter_fresh, if_neg (Nat.succ_ne_zero 0)]
      · rw [if_neg ht0, if_neg (Nat.succ_ne_zero t)]
        have hmiss : relposNeedsRecompute
            (some ⟨1, t, dev, relposVecTable m.maxlen m.indim 1 t⟩) 1 (t + 1) dev = true := by
          simp [relposNeedsRecompute]
        unfold cacheAfter
        rw [if_pos hmiss]

lemma cellStep_fresh (m : MHA) (hc : m.cellMode = true) (hz : ℕ)
    (hhz : m.horizon = some hz) (hz1 : 1 ≤ hz) (cache : Option RelCache)
    (xt : T2) (dev : ℕ) :
    cellStep m ⟨none, cache⟩ xt dev
      = ((mhaRel m ⟨some ⟨1, stepK m xt, stepV m xt⟩, cache⟩ 1 1 (1, fun b _ d => xt b d)
            (stepQ m xt) (stepK m xt) (stepV m xt) none dev).1.map Prod.snd,
         (mhaRel m ⟨some ⟨1, stepK m xt, stepV m xt⟩, cache⟩ 1 1 (1, fun b _ d => xt b d)
            (stepQ m xt) (stepK m xt) (stepV m xt) none dev).2) := by
  rw [cellStep_eval m hc hz hhz]
  rw [if_neg (show ¬ hz < (appendHist m (MHAState.mk none cache).prev xt).len by
    show ¬ hz < 1
    omega)]
  rfl

/-- C5: with `lm_mode = false`, resetting after `kk` incremental steps and
then feeding one step produces the same output and the same resulting
history as a fresh module's first step; with `lm_mode = true`, `rec_reset`
is the identity on the state (the length-`kk` history persists), so the
next step is literally the step that would have run without the reset. -/
theorem reset_semantics (m : MHA) (hro : m.relpos ≠ Relpos.full) (hz kk : ℕ)
    (x : T3) (dev : ℕ) (xt : T2) (hk1 : 1 ≤ kk) (hkhz : kk ≤ hz) :
    ((cellStep (cellConfig m hz)
          ((cellConfig m hz).rec_reset (cellRunState (cellConfig m hz) x dev kk)) xt dev).1
        = (cellStep (cellConfig m hz) initMHAState xt dev).1
      ∧ (cellStep (cellConfig m hz)
          ((cellConfig m hz).rec_reset (cellRunState (cellConfig m hz) x dev kk)) xt dev).2.prev
        = (cellStep (cellConfig m hz) initMHAState xt dev).2.prev)
    ∧ (∀ (m' : MHA) (st : MHAState), m'.lmMode = true →
        m'.rec_reset st = st
        ∧ cellStep m' (m'.rec_reset st) xt dev = cellStep m' st xt dev) := by
  constructor
  · have hreset : (cellConfig m hz).rec_reset (cellRunState (cellConfig m hz) x dev kk)
        = ⟨none, (cellRunState (cellConfig m hz) x dev kk).relCache⟩ := rfl
    rw [hreset]
    rw [cellStep_fresh (cellConfig m hz) rfl hz rfl (by omega)
      (cellRunState (cellConfig m hz) x dev kk).relCache xt dev]
    have hinit : (initMHAState : MHAState) = ⟨none, (none : Option RelCache)⟩ := rfl
    rw [hinit, cellStep_fresh (cellConfig m hz) rfl hz rfl (by omega) none xt dev]
    cases hr : m.relpos with
    | off =>
        rw [mhaRel_off (cellConfig m hz) hr, mhaRel_off (cellConfig m hz) hr]
        exact ⟨rfl, rfl⟩
    | simple =>
        rw [mhaRel_simple (cellConfig m hz) hr _ _ _ _ _ _ _ _ _ (by omega),
          mhaRel_simple (cellConfig m hz) hr _ _ _ _ _ _ _ _ _ (by omega)]
        have hcache : cacheAfter (cellConfig m hz)
            (cellRunState (cellConfig m hz) x dev kk).relCache 1 1 dev
            = cacheAfter (cellConfig m hz) none 1 1 dev := by
          rw [cellRunState_cache_simple (cellConfig m hz) rfl hr hz rfl x dev kk hkhz]
          rw [if_neg (by omega)]
          rw [cacheAfter_fresh]
          by_cases hkk : kk = 1
          · subst hkk
            unfold cacheAfter
            rw [if_neg (by simp [relposNeedsRecompute])]
          · unfold cacheAfter
            rw [if_pos (by simp [relposNeedsRecompute]; omega)]
        rw [hcache]
        exact ⟨rfl, rfl⟩
    | full => exact absurd hr hro
  · intro m' st hlm
    have h1 : m'.rec_reset st = st := by
      unfold MHA.rec_reset
      rw [if_pos hlm]
    exact ⟨h1, by rw [h1]⟩

/-- Witness for C5 at a concrete module, one step before the reset. -/
theorem reset_semantics_witness :
    (cellStep (cellConfig mW 2)
        ((cellConfig mW 2).rec_reset (cellRunState (cellConfig mW 2) zX 0 1)) zM 0).1
      = (cellStep (cellConfig mW 2) initMHAState zM 0).1 :=
  ((reset_semantics mW (by decide) 2 1 zX 0 zM (by decide) (by decide)).1).1

lemma forwardFull_noncell (m : MHA) (hc : m.cellMode = false) (st : MHAState)
    (qn : ℕ) (x : T3) (kIn vIn : Option (ℕ × T3)) (mask : Option T2) (dev : ℕ) :
    m.forwardFull st qn x kIn vIn mask dev
      = mhaRel m st qn (kIn.getD (qn, x)).1 (kIn.getD (qn, x)) (projQ m x)
          (projK m (kIn.getD (qn, x)).2) (projV m ((vIn.getD (kIn.getD (qn, x))).2))
          mask dev := by
  unfold MHA.forwardFull
  simp only [hc, Bool.false_and, Bool.false_eq_true, if_false]
  rfl

lemma wholeMask_nomask_unidir (m : MHA) (hb : m.bidir = false) (qn kn : ℕ) :
    wholeMask m none qn kn = some (causalMask qn kn) := by
  unfold wholeMask
  simp [hb]

lemma softmaxW_causal_zero (qn kn : ℕ) (w4 : T4) (b h i j : ℕ)
    (hij : i + kn < j + qn) :
    softmaxW kn (causalMask qn kn) w4 b h i j = 0 := by
  unfold softmaxW causalMask
  rw [if_neg (by omega)]
  simp

lemma mhaRel_full_noncell (m : MHA) (hrf : m.relpos = Relpos.full)
    (hcell : m.cellMode = false) (st : MHAState) (qn kn : ℕ) (kk : ℕ × T3)
    (q kE vE : T4) (mask : Option T2) (dev : ℕ) (hqk : ¬ kn < qn) :
    mhaRel m st qn kn kk q kE vE mask dev
      = (.ok (attnTail m qn kn q kE vE
            (some (relHeadsOf m (cacheVec (cacheAfter m st.relCache qn kn dev))))
            (some (fullWuR m kk.2,
              fullWvR m (cacheVec (cacheAfter m st.relCache qn kn dev))))
            mask),
         { st with relCache := cacheAfter m st.relCache qn kn dev }) := by
  unfold mhaRel
  rw [if_neg (by rw [hrf]; exact fun hcon => Relpos.noConfusion hcon)]
  rw [relposUpdateCache_eval m st.relCache qn kn dev hqk]
  rw [hrf]
  dsimp only
  rw [if_neg (by simp [hcell])]

/-- C6: for a unidirectional module run non-incrementally with equal query
and key length and no padding mask, the run succeeds and every post-softmax
attention weight at a key position strictly beyond the query position is
exactly zero (any relative-position mode). -/
theorem causal_weights_zero (m : MHA) (hb : m.bidir = false)
    (hc : m.cellMode = false) (n : ℕ) (x : T3) (dev : ℕ) (b h i j : ℕ)
    (hij : i < j) (hjn : j < n) :
    exceptOk (m.forwardFull initMHAState n x none none none dev).1 = true
    ∧ getW (m.forwardFull initMHAState n x none none none dev).1 b h i j = 0 := by
  rw [forwardFull_noncell m hc initMHAState n x none none none dev]
  simp only [Option.getD_none]
  cases hr : m.relpos with
  | off =>
      rw [mhaRel_off m hr]
      refine ⟨rfl, ?_⟩
      show (attnTail m n n (projQ m x) (projK m x) (projV m x) none none none).1 b h i j = 0
      dsimp only [attnTail]
      rw [wholeMask_nomask_unidir m hb]
      exact softmaxW_causal_zero n n _ b h i j (by omega)
  | simple =>
      rw [mhaRel_simple m hr _ _ _ _ _ _ _ _ _ (by omega)]
      refine ⟨rfl, ?_⟩
      show (attnTail m n n (projQ m x) (projK m x) (projV m x) _ none none).1 b h i j = 0
      dsimp only [attnTail]
      rw [wholeMask_nomask_unidir m hb]
      exact softmaxW_causal_zero n n _ b h i j (by omega)
  | full =>
      rw [mhaRel_full_noncell m hr hc _ _ _ _ _ _ _ _ _ (by omega)]
      refine ⟨rfl, ?_⟩
      show (attnTail m n n (projQ m x) (projK m x) (projV m x) _ _ none).1 b h i j = 0
      dsimp only [attnTail]
      rw [wholeMask_nomask_unidir m hb]
      exact softmaxW_causal_zero n n _ b h i j (by omega)

/-- Witness for C6 at a concrete module and positions `i = 0 < j = 1`. -/
theorem causal_weights_zero_witness :
    exceptOk (mW.forwardFull initMHAState 2 zX none none none 0).1 = true
    ∧ getW (mW.forwardFull initMHAState 2 zX none none none 0).1 0 0 0 1 = 0 :=
  causal_weights_zero mW rfl rfl 2 zX 0 0 0 0 1 (by decide) (by decide)

lemma attnTail_row_eq (m : MHA) (hb : m.bidir = false) (n : ℕ) (hn : 1 ≤ n)
    (qF kF vF qC kC vC : T4) (rhF rhC : Option T4)
    (hq : ∀ b h d, qF b (n - 1) h d = qC b 0 h d)
    (hk : ∀ b j h d, j < n → kF b j h d = kC b j h d)
    (hv : ∀ b j h d, j < n → vF b j h d = vC b j h d)
    (hrh : (rhF = none ∧ rhC = none) ∨
      (∃ rF rC, rhF = some rF ∧ rhC = some rC ∧
        ∀ j h d, j < n → rF (n - 1) j h d = rC 0 j h d))
    (b e : ℕ) :
    (attnTail m n n qF kF vF rhF none none).2 b (n - 1) e
      = (attnTail m 1 n qC kC vC rhC none none).2 b 0 e := by
  have hscore : ∀ h j, j < n →
      scaleScores m (fullScores m qF kF rhF none) b h (n - 1) j
        = scaleScores m (fullScores m qC kC rhC none) b h 0 j := by
    intro h j hj
    have hfs : fullScores m qF kF rhF none b h (n - 1) j
        = fullScores m qC kC rhC none b h 0 j := by
      have hcs : contentScores m.d_k qF kF b h (n - 1) j
          = contentScores m.d_k qC kC b h 0 j := by
        unfold contentScores
        exact Finset.sum_congr rfl fun d _ => by rw [hq b h d, hk b j h d hj]
      unfold fullScores
      rcases hrh with ⟨hF, hC⟩ | ⟨rF, rC, hF, hC, hr⟩
      · rw [hF, hC]
        dsimp only
        rw [hcs]
      · rw [hF, hC]
        dsimp only
        have hrs : relScores m.d_k qF rF b h (n - 1) j
            = relScores m.d_k qC rC b h 0 j := by
          unfold relScores
          exact Finset.sum_congr rfl fun d _ => by rw [hq b h d, hr j h d hj]
        rw [hcs, hrs]
    unfold scaleScores
    by_cases hs : m.scale = true
    · rw [if_pos hs, if_pos hs]
      rw [hfs]
    · rw [if_neg hs, if_neg hs]
      exact hfs
  have hcmF : ∀ (bb hh z : ℕ), z < n → causalMask n n bb hh (n - 1) z = 1 := by
    intro bb hh z hzn
    unfold causalMask
    rw [if_pos (by omega)]
  have hcmC : ∀ (bb hh z : ℕ), z < n → causalMask 1 n bb hh 0 z = 1 := by
    intro bb hh z hzn
    unfold causalMask
    rw [if_pos (by omega)]
  have hw : ∀ h j, j < n →
      softmaxW n (maskFun (wholeMask m none n n))
          (scaleScores m (fullScores m qF kF rhF none)) b h (n - 1) j
        = softmaxW n (maskFun (wholeMask m none 1 n))
          (scaleScores m (fullScores m qC kC rhC none)) b h 0 j := by
    intro h j hj
    rw [wholeMask_nomask_unidir m hb n n, wholeMask_nomask_unidir m hb 1 n]
    unfold softmaxW maskFun
    dsimp only
    congr 1
    · rw [hcmF b h j hj, hcmC b h j hj, hscore h j hj]
    · refine Finset.sum_congr rfl fun z hz => ?_
      rw [Finset.mem_range] at hz
      rw [hcmF b h z hz, hcmC b h z hz, hscore h z hz]
  have hmix : ∀ h d,
      mixV n (softmaxW n (maskFun (wholeMask m none n n))
          (scaleScores m (fullScores m qF kF rhF none))) vF b (n - 1) h d
        = mixV n (softmaxW n (maskFun (wholeMask m none 1 n))
          (scaleScores m (fullScores m qC kC rhC none))) vC b 0 h d := by
    intro h d
    unfold mixV
    refine Finset.sum_congr rfl fun j hj => ?_
    rw [Finset.mem_range] at hj
    rw [hw h j hj, hv b j h d hj]
  dsimp only [attnTail]
  unfold outProj linear
  congr 1
  refine Finset.sum_congr rfl fun c _ => ?_
  dsimp only
  rw [hmix (c / m.d_v) (c % m.d_v)]

/-- C1: incremental-decode equivalence.  For a unidirectional module with
dropout disabled (the model), running non-incrementally over `n` positions
and reading the last output row equals running the same weights in cell
mode (any horizon `hz ≥ n`) for `n` single-position steps and reading the
final step's output.  `relpos = full` is excluded: that mode cannot run
incrementally at all (it raises in cell mode); `off` and `simple` are
covered. -/
theorem incremental_decode_equiv (m : MHA) (hb : m.bidir = false)
    (hc : m.cellMode = false) (hro : m.relpos ≠ Relpos.full)
    (n hz dev : ℕ) (x : T3) (hn : 1 ≤ n) (hhz : n ≤ hz) (b e : ℕ) :
    exceptOk (m.forward initMHAState n x none none none dev).1 = true
    ∧ exceptOk (cellStepOut (cellConfig m hz) x dev (n - 1)) = true
    ∧ getOut (m.forward initMHAState n x none none none dev).1 b (n - 1) e
        = getOut (cellStepOut (cellConfig m hz) x dev (n - 1)) b 0 e := by
  have hprev := cellRunState_prev (cellConfig m hz) rfl hz rfl x dev (n - 1)
  have hn1 : n - 1 + 1 = n := by omega
  have happ : appendHist (cellConfig m hz)
      (cellRunState (cellConfig m hz) x dev (n - 1)).prev (fun b d => x b (n - 1) d)
      = ⟨n, histK (cellConfig m hz) x n, histV (cellConfig m hz) x n⟩ := by
    rw [hprev, appendHist_at, hn1]
  have hq : ∀ b h d, projQ m x b (n - 1) h d
      = stepQ (cellConfig m hz) (fun b d => x b (n - 1) d) b 0 h d :=
    fun _ _ _ => rfl
  have hk : ∀ b j h d, j < n → projK m x b j h d
      = histK (cellConfig m hz) x n b j h d := by
    intro b j h d hj
    show linear m.Wk m.bk m.indim (x b j) (h * m.d_k + d)
      = linear m.Wk m.bk m.indim (x b (min j (n - 1))) (h * m.d_k + d)
    rw [Nat.min_eq_left (by omega)]
  have hv : ∀ b j h d, j < n → projV m x b j h d
      = histV (cellConfig m hz) x n b j h d := by
    intro b j h d hj
    show linear m.Wv m.bv m.indim (x b j) (h * m.d_v + d)
      = linear m.Wv m.bv m.indim (x b (min j (n - 1))) (h * m.d_v + d)
    rw [Nat.min_eq_left (by omega)]
  cases hr : m.relpos with
  | full => exact absurd hr hro
  | off =>
      have hF : m.forwardFull initMHAState n x none none none dev
          = (.ok (attnTail m n n (projQ m x) (projK m x) (projV m x) none none none),
             initMHAState) := by
        rw [forwardFull_noncell m hc initMHAState n x none none none dev]
        simp only [Option.getD_none]
        exact mhaRel_off m hr initMHAState n n (n, x) (projQ m x) (projK m x) (projV m x)
          none dev
      have hC : cellStepOut (cellConfig m hz) x dev (n - 1)
          = .ok ((attnTail (cellConfig m hz) 1 n
              (stepQ (cellConfig m hz) (fun b d => x b (n - 1) d))
              (histK (cellConfig m hz) x n) (histV (cellConfig m hz) x n)
              none none none).2) := by
        unfold cellStepOut
        rw [cellStep_eval (cellConfig m hz) rfl hz rfl, happ]
        rw [if_neg (by show ¬ hz < n; omega)]
        rw [mhaRel_off (cellConfig m hz) hr]
        rfl
      refine ⟨?_, ?_, ?_⟩
      · unfold MHA.forward
        rw [hF]
        rfl
      · rw [hC]
        rfl
      · unfold MHA.forward
        rw [hF, hC]
        show (attnTail m n n (projQ m x) (projK m x) (projV m x) none none none).2 b (n - 1) e
          = (attnTail (cellConfig m hz) 1 n
              (stepQ (cellConfig m hz) (fun b d => x b (n - 1) d))
              (histK (cellConfig m hz) x n) (histV (cellConfig m hz) x n)
              none none none).2 b 0 e
        exact attnTail_row_eq m hb n hn (projQ m x) (projK m x) (projV m x)
          (stepQ (cellConfig m hz) (fun b d => x b (n - 1) d))
          (histK (cellConfig m hz) x n) (histV (cellConfig m hz) x n) none none
          hq hk hv (Or.inl ⟨rfl, rfl⟩) b e
  | simple =>
      have hF : m.forwardFull initMHAState n x none none none dev
          = (.ok (attnTail m n n (projQ m x) (projK m x) (projV m x)
                (some (relHeadsOf m (relposVecTable m.maxlen m.indim n n))) none none),
             { initMHAState with
                relCache := some ⟨n, n, dev, relposVecTable m.maxlen m.indim n n⟩ }) := by
        rw [forwardFull_noncell m hc initMHAState n x none none none dev]
        simp only [Option.getD_none]
        rw [mhaRel_simple m hr initMHAState n n (n, x) (projQ m x) (projK m x) (projV m x)
          none dev (by omega)]
        rfl
      have hcache := cellRunState_cache_simple (cellConfig m hz) rfl hr hz rfl x dev
        (n - 1) (by omega)
      have hafter : cacheAfter (cellConfig m hz)
          (cellRunState (cellConfig m hz) x dev (n - 1)).relCache 1 n dev
          = some ⟨1, n, dev, relposVecTable (cellConfig m hz).maxlen
              (cellConfig m hz).indim 1 n⟩ := by
        rw [hcache]
        by_cases h1 : n - 1 = 0
        · rw [if_pos h1]
          rfl
        · rw [if_neg h1]
          unfold cacheAfter
          rw [if_pos (by simp [relposNeedsRecompute]; omega)]
      have hC : cellStepOut (cellConfig m hz) x dev (n - 1)
          = .ok ((attnTail (cellConfig m hz) 1 n
              (stepQ (cellConfig m hz) (fun b d => x b (n - 1) d))
              (histK (cellConfig m hz) x n) (histV (cellConfig m hz) x n)
              (some (relHeadsOf (cellConfig m hz)
                (relposVecTable (cellConfig m hz).maxlen (cellConfig m hz).indim 1 n)))
              none none).2) := by
        unfold cellStepOut
        rw [cellStep_eval (cellConfig m hz) rfl hz rfl, happ]
        rw [if_neg (by show ¬ hz < n; omega)]
        rw [mhaRel_simple (cellConfig m hz) hr _ 1 n _ _ _ _ none dev
          (by show ¬ n < 1; omega)]
        rw [hafter]
        rfl
      have hrel : ∀ j h d, j < n →
          relHeadsOf m (relposVecTable m.maxlen m.indim n n) (n - 1) j h d
            = relHeadsOf (cellConfig m hz)
                (relposVecTable (cellConfig m hz).maxlen (cellConfig m hz).indim 1 n)
                0 j h d := by
        intro j h d hj
        show linear m.Wk m.bk m.indim (relposVecTable m.maxlen m.indim n n (n - 1) j)
            (h * m.d_k + d)
          = linear m.Wk m.bk m.indim (relposVecTable m.maxlen m.indim 1 n 0 j)
            (h * m.d_k + d)
        have hvec : relposVecTable m.maxlen m.indim n n (n - 1) j
            = relposVecTable m.maxlen m.indim 1 n 0 j := by
          funext dd
          unfold relposVecTable get_sinusoid_encoding_table
          congr 1
          omega
        rw [hvec]
      refine ⟨?_, ?_, ?_⟩
      · unfold MHA.forward
        rw [hF]
        rfl
      · rw [hC]
        rfl
      · unfold MHA.forward
        rw [hF, hC]
        show (attnTail m n n (projQ m x) (projK m x) (projV m x)
            (some (relHeadsOf m (relposVecTable m.maxlen m.indim n n))) none none).2
              b (n - 1) e
          = (attnTail (cellConfig m hz) 1 n
              (stepQ (cellConfig m hz) (fun b d => x b (n - 1) d))
              (histK (cellConfig m hz) x n) (histV (cellConfig m hz) x n)
              (some (relHeadsOf (cellConfig m hz)
                (relposVecTable (cellConfig m hz).maxlen (cellConfig m hz).indim 1 n)))
              none none).2 b 0 e
        exact attnTail_row_eq m hb n hn (projQ m x) (projK m x) (projV m x)
          (stepQ (cellConfig m hz) (fun b d => x b (n - 1) d))
          (histK (cellConfig m hz) x n) (histV (cellConfig m hz) x n)
          (some (relHeadsOf m (relposVecTable m.maxlen m.indim n n)))
          (some (relHeadsOf (cellConfig m hz)
            (relposVecTable (cellConfig m hz).maxlen (cellConfig m hz).indim 1 n)))
          hq hk hv
          (Or.inr ⟨relHeadsOf m (relposVecTable m.maxlen m.indim n n),
            relHeadsOf (cellConfig m hz)
              (relposVecTable (cellConfig m hz).maxlen (cellConfig m hz).indim 1 n),
            rfl, rfl, hrel⟩) b e

/-- Witness for C1 at a concrete module, `n = 1`, horizon 1. -/
theorem incremental_decode_equiv_witness :
    exceptOk (mW.forward initMHAState 1 zX none none none 0).1 = true
    ∧ exceptOk (cellStepOut (cellConfig mW 1) zX 0 0) = true
    ∧ getOut (mW.forward initMHAState 1 zX none none none 0).1 0 0 0
        = getOut (cellStepOut (cellConfig mW 1) zX 0 0) 0 0 0 :=
  incremental_decode_equiv mW rfl rfl (by decide) 1 1 0 zX (by decide) (by decide) 0 0

/-- C4 counterexample: after one forward call at `(q_len, k_len) = (2, 2)`
on a module with `indim = 1`, one head and key-projection weight 2, the
cache entry at offset `+1` holds `sin 1` — the raw sinusoid embedding —
while its projection through `k_proj` is `2 * sin 1 ≠ sin 1`.  So the cache
holds the unprojected relative-position vectors (shape
`(q_len, k_len, indim)`), not the projected per-head vectors the claim
describes; the projection is re-applied to the cached table on every call
(source line 167 sits outside the cached branch). -/
theorem relpos_cache_unprojected_counterexample :
    cacheVec ((mWr.forwardFull initMHAState 2 zX none none none 0).2.relCache) 0 1 0
        = Real.sin 1
    ∧ relHeadsOf mWr
        (cacheVec ((mWr.forwardFull initMHAState 2 zX none none none 0).2.relCache)) 0 1 0 0
        = 2 * Real.sin 1
    ∧ Real.sin 1 ≠ 2 * Real.sin 1 := by
  have hangle : cal_angle 1 1 0 = 1 := by
    unfold cal_angle
    norm_num
  have hsin : Real.sin 1 ≠ 0 := by
    have h1 : (0 : ℝ) < Real.sin 1 :=
      Real.sin_pos_of_pos_of_lt_pi (by norm_num) (by linarith [Real.pi_gt_three])
    linarith
  refine ⟨?_, ?_, ?_⟩
  · show sinusoid_entry 1 1 0 = Real.sin 1
    unfold sinusoid_entry
    rw [if_pos rfl, hangle]
  · show (∑ i ∈ Finset.range 1, (2 : ℝ) * sinusoid_entry 1 1 i) + 0 = 2 * Real.sin 1
    rw [Finset.sum_range_one, add_zero]
    unfold sinusoid_entry
    rw [if_pos rfl, hangle]
  · intro hcon
    apply hsin
    linarith

/-- C4 amended: for any enabled relative-position mode (`simple` or `full`)
in non-incremental use, the cache is keyed by `(q_len, k_len)` and the
device; a first call from a fresh cache stores the *unprojected*
relative-position table (shape `(q_len, k_len, indim)`); a second call with
the same `(q_len, k_len)` on the same device leaves the cache entry
untouched (no recomputation of the table) while still re-projecting the
cached table through `k_proj` for its scores (in `full` mode additionally
re-deriving the two bias terms from it); a call with a different
`(q_len, k_len)` rebuilds the cache entry for the new key. -/
theorem relpos_cache_behaviour (m : MHA) (hre : m.relpos ≠ Relpos.off)
    (hc : m.cellMode = false) (qn kn qn2 kn2 dev : ℕ) (x x2 x3 k1 k2 k3 : T3)
    (hqk : qn ≤ kn) (hqk2 : qn2 ≤ kn2) (hdiff : ¬ (qn2 = qn ∧ kn2 = kn)) :
    (m.forwardFull initMHAState qn x (some (kn, k1)) none none dev).2.relCache
        = some ⟨qn, kn, dev, relposVecTable m.maxlen m.indim qn kn⟩
    ∧ (m.forwardFull (m.forwardFull initMHAState qn x (some (kn, k1)) none none dev).2
          qn x2 (some (kn, k2)) none none dev).2.relCache
        = (m.forwardFull initMHAState qn x (some (kn, k1)) none none dev).2.relCache
    ∧ (m.relpos = Relpos.simple →
        (m.forwardFull (m.forwardFull initMHAState qn x (some (kn, k1)) none none dev).2
            qn x2 (some (kn, k2)) none none dev).1
          = .ok (attnTail m qn kn (projQ m x2) (projK m k2) (projV m k2)
              (some (relHeadsOf m (relposVecTable m.maxlen m.indim qn kn))) none none))
    ∧ (m.relpos = Relpos.full →
        (m.forwardFull (m.forwardFull initMHAState qn x (some (kn, k1)) none none dev).2
            qn x2 (some (kn, k2)) none none dev).1
          = .ok (attnTail m qn kn (projQ m x2) (projK m k2) (projV m k2)
              (some (relHeadsOf m (relposVecTable m.maxlen m.indim qn kn)))
              (some (fullWuR m k2, fullWvR m (relposVecTable m.maxlen m.indim qn kn)))
              none))
    ∧ (m.forwardFull (m.forwardFull initMHAState qn x (some (kn, k1)) none none dev).2
          qn2 x3 (some (kn2, k3)) none none dev).2.relCache
        = some ⟨qn2, kn2, dev, relposVecTable m.maxlen m.indim qn2 kn2⟩ := by
  have hqk' : ¬ kn < qn := by omega
  have hqk2' : ¬ kn2 < qn2 := by omega
  have key : ∀ (st : MHAState) (qq knn : ℕ) (xx kkk : T3), ¬ knn < qq →
      (m.forwardFull st qq xx (some (knn, kkk)) none none dev).2
        = { st with relCache := cacheAfter m st.relCache qq knn dev } := by
    intro st qq knn xx kkk hlt
    cases hr : m.relpos with
    | off => exact absurd hr hre
    | simple =>
        rw [forwardFull_noncell m hc st qq xx (some (knn, kkk)) none none dev]
        simp only [Option.getD_some]
        rw [mhaRel_simple m hr st qq _ _ _ _ _ none dev hlt]
    | full =>
        rw [forwardFull_noncell m hc st qq xx (some (knn, kkk)) none none dev]
        simp only [Option.getD_some]
        rw [mhaRel_full_noncell m hr hc st qq _ _ _ _ _ none dev hlt]
  have h1 : (m.forwardFull initMHAState qn x (some (kn, k1)) none none dev).2
      = (⟨none, some ⟨qn, kn, dev, relposVecTable m.maxlen m.indim qn kn⟩⟩ : MHAState) := by
    rw [key initMHAState qn kn x k1 hqk']
    rfl
  have hhit : cacheAfter m
      (MHAState.mk none (some ⟨qn, kn, dev, relposVecTable m.maxlen m.indim qn kn⟩)).relCache
      qn kn dev
      = some ⟨qn, kn, dev, relposVecTable m.maxlen m.indim qn kn⟩ := by
    show cacheAfter m (some ⟨qn, kn, dev, relposVecTable m.maxlen m.indim qn kn⟩) qn kn dev = _
    unfold cacheAfter
    rw [if_neg (by simp [relposNeedsRecompute])]
  refine ⟨?_, ?_, ?_, ?_, ?_⟩
  · rw [h1]
  · rw [h1, key _ qn kn x2 k2 hqk']
    show cacheAfter m
        (MHAState.mk none
          (some ⟨qn, kn, dev, relposVecTable m.maxlen m.indim qn kn⟩)).relCache qn kn dev
      = (MHAState.mk none
          (some ⟨qn, kn, dev, relposVecTable m.maxlen m.indim qn kn⟩) : MHAState).relCache
    rw [hhit]
  · intro hr
    rw [h1]
    rw [forwardFull_noncell m hc _ qn x2 (some (kn, k2)) none none dev]
    simp only [Option.getD_some]
    rw [mhaRel_simple m hr _ qn _ _ _ _ _ none dev hqk']
    rw [hhit]
    rfl
  · intro hr
    rw [h1]
    rw [forwardFull_noncell m hc _ qn x2 (some (kn, k2)) none none dev]
    simp only [Option.getD_some]
    rw [mhaRel_full_noncell m hr hc _ qn _ _ _ _ _ none dev hqk']
    rw [hhit]
    rfl
  · rw [h1, key _ qn2 kn2 x3 k3 hqk2']
    show cacheAfter m
        (MHAState.mk none
          (some ⟨qn, kn, dev, relposVecTable m.maxlen m.indim qn kn⟩)).relCache qn2 kn2 dev
      = some ⟨qn2, kn2, dev, relposVecTable m.maxlen m.indim qn2 kn2⟩
    show cacheAfter m (some ⟨qn, kn, dev, relposVecTable m.maxlen m.indim qn kn⟩)
        qn2 kn2 dev = _
    unfold cacheAfter
    rw [if_pos (by
      simp only [relposNeedsRecompute, Bool.not_eq_eq_eq_not, Bool.not_true,
        decide_eq_false_iff_not]
      intro hcon
      exact hdiff ⟨hcon.1.symm, hcon.2.1.symm⟩)]

/-- Witness for the amended C4 theorem at concrete sizes `(1,1)` then `(2,2)`. -/
theorem relpos_cache_behaviour_witness :
    (mWr.forwardFull initMHAState 1 zX (some (1, zX)) none none 0).2.relCache
      = some ⟨1, 1, 0, relposVecTable mWr.maxlen mWr.indim 1 1⟩ :=
  (relpos_cache_behaviour mWr (by decide) rfl 1 1 2 2 0 zX zX zX zX zX zX
    (by decide) (by decide) (by decide)).1

/-- C10: the step that overflows the horizon raises the horizon error, but
the history has already been extended: after the failed call the stored
key/value history has length `horizon + 1` and still holds every appended
projected step (row `s` is the projection of input row `s`) — nothing is
truncated, the truncation code after the raise being unreachable. -/
theorem horizon_overflow_appends (m : MHA) (hz : ℕ) (x : T3) (dev : ℕ) :
    cellStepOut (cellConfig m hz) x dev hz = .error "cannot go beyond horizon"
    ∧ (cellRunState (cellConfig m hz) x dev (hz + 1)).prev
        = some ⟨hz + 1, histK (cellConfig m hz) x (hz + 1), histV (cellConfig m hz) x (hz + 1)⟩ := by
  constructor
  · exact cellStepOut_horizon_error (cellConfig m hz) rfl hz rfl x dev hz (by omega)
  · rw [cellRunState_prev (cellConfig m hz) rfl hz rfl x dev (hz + 1)]
    rw [if_neg (Nat.succ_ne_zero hz)]

end

end Qelos
